import Mathlib

/-!
# Verification of the `printree` tree renderer

Shallow embedding of `src/packages/printree/ts/render.ts` (the render stage),
of the historical API in `src/unnamed/part_000` (`format` / `formatTree` /
`formatNodes` / `isLabeledNode`), and — modelled from the spec, since
`transform.ts` itself is not among the provided sources — of the transform
stage's top-level index behaviour.

Conventions: TypeScript strings become Lean `String`; `undefined`/optional
values become `Option`; `Array.prototype.join(sep)` becomes `jsJoin sep`;
`String.prototype.trimEnd()` becomes `trimEnd` (dropping trailing JS
whitespace characters).
-/

/-- The glyph record of `render.ts` (`interface Glyphs`). -/
structure Glyphs where
  corner : String
  branch : String
  vertical : String
  indent : String
deriving Repr, DecidableEq

/-- Constant `DEFAULT_GLYPHS` of `render.ts`. -/
def DEFAULT_GLYPHS : Glyphs :=
  { corner := "└─ ", branch := "├─ ", vertical := "│  ", indent := "   " }

/-- The options record of `render.ts` (`interface Options`): an optional
glyph override (`glyphs?: undefined | Glyphs`). -/
structure Options where
  glyphs : Option Glyphs := none
deriving Repr, DecidableEq

/-- The uniform tree node of `render.ts`: a `Leaf` carries only `text`
(its `children` field is absent), a `Parent` carries `text` plus an ordered
(possibly empty) list of children.  `isLeaf` tests absence of `children`. -/
inductive Node where
  | leaf (text : String)
  | parent (text : String) (children : List Node)

/-- The `text` field shared by both node shapes. -/
def Node.text : Node → String
  | .leaf t => t
  | .parent t _ => t

/-- The `children` field as `render.ts` observes it: `undefined` on a leaf
(`isLeaf`), present (possibly `[]`) on a parent (`isParent`). -/
def Node.childrenField : Node → Option (List Node)
  | .leaf _ => none
  | .parent _ cs => some cs

/-- The render input of `render.ts` (`type Input`): a single node or an
array of nodes (`isArray` distinguishes the two at runtime). -/
inductive Input where
  | single (node : Node)
  | array (nodes : List Node)

/-- Embeds `Array.prototype.join(sep)` on a list of strings. -/
def jsJoin (sep : String) : List String → String
  | [] => ""
  | [a] => a
  | a :: b :: rest => a ++ sep ++ jsJoin sep (b :: rest)

mutual

/-- Embeds `renderNode` of `render.ts`: computes `nodePrefix`/`childPrefix` from
`isRoot`/`isLast`, emits the node's own line, then (for a parent with at
least one child) a newline and the newline-joined child renderings. -/
def renderNode (node : Node) (g : Glyphs) (pre : String)
    (isLast : Bool) (isRoot : Bool) : String :=
  let nodePfx := if isRoot then "" else pre ++ (if isLast then g.corner else g.branch)
  let childPfx := if isRoot then "" else pre ++ (if isLast then g.indent else g.vertical)
  match node with
  | .leaf t => nodePfx ++ t
  | .parent t cs =>
    match cs with
    | [] => nodePfx ++ t
    | c :: rest => nodePfx ++ t ++ "\n" ++ jsJoin "\n" (renderChildren (c :: rest) g childPfx)

/-- The `node.children.map((child, index) => renderNode(child, …, index ===
children.length - 1, false))` traversal of `render.ts`: each child is
rendered as non-root, `isLast` true exactly for the final element. -/
def renderChildren (cs : List Node) (g : Glyphs) (pre : String) : List String :=
  match cs with
  | [] => []
  | c :: rest => renderNode c g pre rest.isEmpty false :: renderChildren rest g pre

end

/-- Embeds `render` of `render.ts`: resolves `options.glyphs ?? DEFAULT_GLYPHS`;
an array input maps each element through `renderNode` (non-root, positional
`isLast`) and joins with `"\n"`; a single node is rendered as root. -/
def render (input : Input) (options : Options := {}) : String :=
  let g := options.glyphs.getD DEFAULT_GLYPHS
  match input with
  | .array nodes => jsJoin "\n" (renderChildren nodes g "")
  | .single node => renderNode node g "" true true

/-- The JS whitespace predicate relevant to `String.prototype.trimEnd()`
restricted to the characters this codebase can produce (ASCII blanks and
line terminators); Unicode space separators never occur in the embedded
strings. -/
def jsWhite (c : Char) : Bool :=
  c == ' ' || c == '\t' || c == '\n' || c == '\r' || c == '\x0b' || c == '\x0c'

/-- Embeds `String.prototype.trimEnd()`: drop trailing whitespace characters. -/
def trimEnd (s : String) : String :=
  ⟨(s.data.reverse.dropWhile jsWhite).reverse⟩

mutual

/-- Embeds `formatTree` of `src/unnamed/part_000`, instantiated at the uniform tree
type with `getChildren := (·.childrenField)` and
`formatNode := (·.text)` (the instantiation claim C4 describes; with these
callbacks the `label`/`index` context fields do not influence the output,
and a uniform `Node` is an object, never a two-element array, so
`isLabeledNode` is `false` on every child).  Emits the node's own line
(root: bare text; non-root: `guide + pfx + text`), each line terminated by
`"\n"`, then the children block when `getChildren` yielded a non-empty
list, under `nextGuide` (root: `""`; else `guide + ("   " | "│  ")`).
The three cases spell out `getChildren(node)` = `n.childrenField`: a leaf
yields `undefined`, `parent t []` yields `[]` (whose `length` is falsy, so
`if (children?.length)` skips the children block), a non-empty parent
enters the children block. -/
def formatTreeH (n : Node) (guide : String) (pfx : String)
    (isRoot : Bool) (isLastChild : Bool) : String :=
  match n with
  | .leaf t =>
    if isRoot then t ++ "\n" else guide ++ pfx ++ t ++ "\n"
  | .parent t [] =>
    if isRoot then t ++ "\n" else guide ++ pfx ++ t ++ "\n"
  | .parent t (c :: rest) =>
    let line := if isRoot then t ++ "\n" else guide ++ pfx ++ t ++ "\n"
    let nextGuide := if isRoot then "" else guide ++ (if isLastChild then "   " else "│  ")
    line ++ formatNodesH (c :: rest) nextGuide

/-- Embeds `formatNodes` of `src/unnamed/part_000` under the same instantiation:
concatenates, for each child in order, `formatTree` at `isLastChild := (the
child is final)` and node connector `"└─ "`/`"├─ "`. -/
def formatNodesH (cs : List Node) (guide : String) : String :=
  match cs with
  | [] => ""
  | c :: rest =>
    formatTreeH c guide (if rest.isEmpty then "└─ " else "├─ ") false rest.isEmpty
      ++ formatNodesH rest guide

end

/-- Embeds `format` of `src/unnamed/part_000` under the same instantiation: an
array goes through `formatTreeArray` (which runs `formatNodes` with empty
guide and trims the result), a single tree through `formatTree` with the
root context (`guide = ""`, `prefix = ""`, `isRoot = true`,
`isLastChild = true`, `index = 0`) followed by `trimEnd`. -/
def formatH : Input → String
  | .single n => trimEnd (formatTreeH n "" "" true true)
  | .array l => trimEnd (formatNodesH l "")

/-- An untyped JavaScript runtime value, as the generic historical API of
`src/unnamed/part_000` observes its `T` at runtime (`Array.isArray`,
`value.length`, `typeof value[0]`): a string, a number, an object, or an
array. -/
inductive JsVal where
  | str (s : String)
  | num (n : Int)
  | obj (fields : List (String × JsVal))
  | arr (elems : List JsVal)

/-- Embeds the runtime test `typeof value === "string"`. -/
def JsVal.isStr : JsVal → Bool
  | .str _ => true
  | _ => false

/-- Embeds `isLabeledNode` of `src/unnamed/part_000`:
`isArray(value) && value.length === 2 && typeof value[0] === "string"`. -/
def isLabeledNode : JsVal → Bool
  | .arr [a, _] => a.isStr
  | _ => false

/-- One element of the `entries` array built in `formatNodes` of
`src/unnamed/part_000`: `{ node, index, label? }`. -/
structure EntryJ where
  node : JsVal
  index : Nat
  label : Option String

/-- The body of the `nodes.map((nodeOrTuple, index) => …)` in `formatNodes`
of `src/unnamed/part_000`: a value passing `isLabeledNode` is destructured
as `[label, node]`; anything else becomes an unlabeled entry. -/
def toEntry (v : JsVal) (index : Nat) : EntryJ :=
  match v with
  | .arr [.str s, n] => ⟨n, index, some s⟩
  | _ => ⟨v, index, none⟩

/-- The full `nodes.map((nodeOrTuple, index) => …)` of `formatNodes`. -/
def toEntries (i : Nat) : List JsVal → List EntryJ
  | [] => []
  | v :: vs => toEntry v i :: toEntries (i + 1) vs

/-- The options record received by the `formatNode` callback of
`src/unnamed/part_000`: `{ label?, children?, index? }`. -/
structure OptsJ where
  label : Option String
  children : Option (List JsVal)
  index : Option Nat

/-- Embeds `FormatTreeContext` of `src/unnamed/part_000`: the two callbacks
(spread from `Options`) plus `guide`, `prefix` (field `pfx` here),
`isRoot`, `isLastChild`, `label?`, `index`. -/
structure HCtx where
  getChildren : JsVal → Option (List JsVal)
  formatNode : JsVal → OptsJ → String
  guide : String
  pfx : String
  isRoot : Bool
  isLastChild : Bool
  label : Option String
  index : Nat

/-- The `entries.forEach` accumulation of `formatNodes` in
`src/unnamed/part_000`, abstracted over the tree formatter `fmt` (the
recursive `formatTree` at the next fuel level): for each entry, `fmt` runs
with `prefix := "└─ "` for the final entry and `"├─ "` otherwise,
`isRoot := false`, `isLastChild`, and the entry's `label`/`index`; the
results are concatenated in order. -/
def formatEntriesWith (fmt : JsVal → HCtx → Option String) (ctx : HCtx) :
    List EntryJ → Option String
  | [] => some ""
  | e :: rest => do
    let s ← fmt e.node { ctx with pfx := if rest.isEmpty then "└─ " else "├─ ",
                                  isRoot := false, isLastChild := rest.isEmpty,
                                  label := e.label, index := e.index }
    let t ← formatEntriesWith fmt ctx rest
    pure (s ++ t)

/-- Embeds `formatNodes` of `src/unnamed/part_000`, abstracted over the tree
formatter: build the entries, then fold them. -/
def formatNodesWith (fmt : JsVal → HCtx → Option String)
    (nodes : List JsVal) (ctx : HCtx) : Option String :=
  formatEntriesWith fmt ctx (toEntries 0 nodes)

/-- Embeds `formatTree` of `src/unnamed/part_000` over untyped values, with fuel
making the recursion through the caller-supplied `getChildren` explicit
(`none` = fuel exhausted).  The root line passes
`{ label, children }` — and no `index` — to `formatNode`; a non-root line
passes `{ label, children, index }` and is preceded by `guide + prefix`.
When `children?.length` is truthy (present and non-empty) the children are
formatted under `nextGuide`. -/
def formatTreeG : Nat → JsVal → HCtx → Option String
  | 0, _, _ => none
  | fuel + 1, node, ctx =>
    let children := ctx.getChildren node
    let line :=
      if ctx.isRoot then ctx.formatNode node ⟨ctx.label, children, none⟩ ++ "\n"
      else ctx.guide ++ ctx.pfx ++ ctx.formatNode node ⟨ctx.label, children, some ctx.index⟩ ++ "\n"
    match children with
    | some (c :: rest) =>
      let nextGuide :=
        if ctx.isRoot then "" else ctx.guide ++ (if ctx.isLastChild then "   " else "│  ")
      (formatNodesWith (fun v cx => formatTreeG fuel v cx) (c :: rest)
          { ctx with guide := nextGuide }).map (line ++ ·)
    | _ => some line

/-- Embeds `createRootContext` of `src/unnamed/part_000`: `guide = ""`,
`prefix = ""`, `isRoot = true`, `isLastChild = true`, `index = 0`. -/
def createRootContextG (gc : JsVal → Option (List JsVal))
    (fn : JsVal → OptsJ → String) : HCtx :=
  ⟨gc, fn, "", "", true, true, none, 0⟩

/-- Embeds `format` of `src/unnamed/part_000` over untyped values: an array input
goes through `formatTreeArray` (context `guide = ""`, `prefix = "├─ "`,
`isRoot = false`, `isLastChild = false`, `index = 0`); a single value goes
through `formatTree` with the root context; either way the result is
`trimEnd`-ed. -/
def formatG (fuel : Nat) (gc : JsVal → Option (List JsVal))
    (fn : JsVal → OptsJ → String) (tree : JsVal) : Option String :=
  match tree with
  | .arr l => (formatNodesWith (formatTreeG fuel) l ⟨gc, fn, "", "├─ ", false, false, none, 0⟩).map trimEnd
  | t => (formatTreeG fuel t (createRootContextG gc fn)).map trimEnd

/-- Modelled from the spec: the child descriptor of the transform stage
(`transform.ts` is not among the provided sources; §3 of the spec lists the
three kinds): a bare domain node, a named child, or a named children
group. -/
inductive ChildD (α : Type) where
  | bare (node : α)
  | named (name : String) (node : α)
  | group (name : String) (nodes : List α)

/-- Modelled from the spec: the unwrapped child view exposed to `toText`
(§4.1: "the *unwrapped* list of immediate child domain nodes (or, for a
named-children group, the nested sequence)"). -/
def unwrapChild {α : Type} : ChildD α → α ⊕ List α
  | .bare a => .inl a
  | .named _ a => .inl a
  | .group _ l => .inr l

/-- Modelled from the spec: the context passed to `toText` (§4.1): `index`
(zero-based among siblings, 0 for the lone root), `name` (label when
reached via a named child), `children` (unwrapped, absent when
`getChildren` returned absent). -/
structure TContext (α : Type) where
  index : Nat
  name : Option String
  children : Option (List (α ⊕ List α))

/-- Modelled from the spec: transforming an ordered sequence of domain
nodes element-wise, each at its positional index and with no name. -/
def transformSeqWith {α : Type} (f : α → Nat → Option Node) :
    Nat → List α → Option (List Node)
  | _, [] => some []
  | i, a :: rest => do
    pure ((← f a i) :: (← transformSeqWith f (i + 1) rest))

/-- Modelled from the spec: transforming a child-descriptor list (§4.1):
a bare node at index `i` with no name; a named child at index `i` with its
name; a named-children group synthesizes one wrapper `Parent` whose text is
the literal group name and whose children are the members transformed at
their own zero-based indexes with no name. -/
def transformChildrenWith {α : Type} (f : α → Nat → Option String → Option Node) :
    Nat → List (ChildD α) → Option (List Node)
  | _, [] => some []
  | i, c :: rest => do
    let n ← match c with
      | .bare a => f a i none
      | .named s a => f a i (some s)
      | .group s l => (transformSeqWith (fun b j => f b j none) 0 l).map (.parent s)
    let ns ← transformChildrenWith f (i + 1) rest
    pure (n :: ns)

/-- Modelled from the spec: the transform stage's per-node visit (§4.1):
call `getChildren`; build the context; call `toText`; emit a `Leaf` when
`getChildren` returned absent, else a `Parent` over the recursively
transformed descriptors.  Fuel makes the recursion through the
caller-supplied `getChildren` explicit. -/
def transformG {α : Type} (gc : α → Option (List (ChildD α)))
    (tt : α → TContext α → String) : Nat → α → Nat → Option String → Option Node
  | 0, _, _, _ => none
  | fuel + 1, a, idx, nm =>
    let text := tt a ⟨idx, nm, (gc a).map (List.map unwrapChild)⟩
    match gc a with
    | none => some (.leaf text)
    | some cs =>
      (transformChildrenWith (fun b j s => transformG gc tt fuel b j s) 0 cs).map (.parent text)

/-- Modelled from the spec: the transform stage's top level (§4.1): an
ordered sequence is transformed element-wise at its positional index with
no name; a single node is transformed once at `index = 0`. -/
def transformInputG {α : Type} (gc : α → Option (List (ChildD α)))
    (tt : α → TContext α → String) (fuel : Nat) : α ⊕ List α → Option Input
  | .inl a => (transformG gc tt fuel a 0 none).map .single
  | .inr l => (transformSeqWith (fun a i => transformG gc tt fuel a i none) 0 l).map .array

/-- Fuelled child traversal mirroring `renderChildren`, abstracted over the
node renderer at the next fuel level. -/
def renderChildrenWithF (rn : Node → String → Bool → Option String) :
    List Node → String → Option (List String)
  | [], _ => some []
  | c :: rest, pre => do
    pure ((← rn c pre rest.isEmpty) :: (← renderChildrenWithF rn rest pre))

/-- Embeds `renderNode` of `render.ts` re-expressed with explicit fuel (`none` =
fuel exhausted), used to state that the recursion is well-founded on the
tree structure: tree height is always enough fuel. -/
def renderNodeF (g : Glyphs) : Nat → Node → String → Bool → Bool → Option String
  | 0, _, _, _, _ => none
  | fuel + 1, node, pre, isLast, isRoot =>
    let nodePfx := if isRoot then "" else pre ++ (if isLast then g.corner else g.branch)
    let childPfx := if isRoot then "" else pre ++ (if isLast then g.indent else g.vertical)
    match node with
    | .leaf t => some (nodePfx ++ t)
    | .parent t [] => some (nodePfx ++ t)
    | .parent t (c :: rest) =>
      (renderChildrenWithF (fun m p l => renderNodeF g fuel m p l false) (c :: rest) childPfx).map
        (fun lines => nodePfx ++ t ++ "\n" ++ jsJoin "\n" lines)

/-- Embeds `render` of `render.ts` re-expressed with explicit fuel. -/
def renderF (fuel : Nat) (input : Input) (options : Options) : Option String :=
  let g := options.glyphs.getD DEFAULT_GLYPHS
  match input with
  | .array nodes =>
    (renderChildrenWithF (fun m p l => renderNodeF g fuel m p l false) nodes "").map (jsJoin "\n")
  | .single node => renderNodeF g fuel node "" true true

mutual

/-- Height of a uniform tree node (at least 1). -/
def heightN : Node → Nat
  | .leaf _ => 1
  | .parent _ cs => heightL cs + 1

/-- Height of a list of uniform tree nodes (0 when empty). -/
def heightL : List Node → Nat
  | [] => 0
  | c :: rest => max (heightN c) (heightL rest)

end

/-- Height of a render input. -/
def heightI : Input → Nat
  | .single n => heightN n
  | .array l => heightL l

/-- The optional child block appended after a parent's own line in
`renderNode`: empty when there are no child lines, else a newline followed
by the newline-joined child lines. -/
def childBlock : List String → String
  | [] => ""
  | l => "\n" ++ jsJoin "\n" l

/-- Concatenation of lines, each terminated by a newline — the shape in
which the historical `formatTree` accumulates its output. -/
def linesConcat : List String → String
  | [] => ""
  | a :: rest => a ++ "\n" ++ linesConcat rest

/-- A `getChildren` callback that marks every value as a leaf. -/
def gcNone : JsVal → Option (List JsVal) := fun _ => none

/-- A `getChildren` callback over descriptors that marks every value as a
leaf. -/
def gcdNone : JsVal → Option (List (ChildD JsVal)) := fun _ => none

/-- A `formatNode` callback that reports the `index` it was handed. -/
def fnShowIndex : JsVal → OptsJ → String := fun _ o =>
  match o.index with
  | some i => toString i
  | none => "no-index"

/-- A `toText` callback that reports the `index` in its context. -/
def ttShowIndex : JsVal → TContext JsVal → String := fun _ c => toString c.index

/-! ## Helper lemmas -/

theorem trimEnd_append_newline (s : String) : trimEnd (s ++ "\n") = trimEnd s := by
  obtain ⟨d⟩ := s
  simp [trimEnd, String.data, List.dropWhile, jsWhite]

theorem linesConcat_cons (a : String) (rest : List String) :
    linesConcat (a :: rest) = jsJoin "\n" (a :: rest) ++ "\n" := by
  induction rest generalizing a with
  | nil => simp [linesConcat, jsJoin]
  | cons b rest ih =>
    show a ++ "\n" ++ linesConcat (b :: rest) = jsJoin "\n" (a :: b :: rest) ++ "\n"
    rw [ih b]
    simp [jsJoin, String.append_assoc]

theorem heightN_pos (n : Node) : 1 ≤ heightN n := by
  cases n <;> simp [heightN]

theorem heightN_le_heightL {c : Node} {cs : List Node} (h : c ∈ cs) :
    heightN c ≤ heightL cs := by
  induction cs with
  | nil => cases h
  | cons b rest ih =>
    rcases List.mem_cons.mp h with rfl | h2
    · simp [heightL]
    · simp [heightL]
      exact Or.inr (ih h2)

theorem fmtNodesH_eq_of (k : Nat)
    (ih : ∀ n, heightN n ≤ k → ∀ guide isLast,
      formatTreeH n guide (if isLast then "└─ " else "├─ ") false isLast
        = renderNode n DEFAULT_GLYPHS guide isLast false ++ "\n") :
    ∀ cs, heightL cs ≤ k → ∀ guide,
      formatNodesH cs guide = linesConcat (renderChildren cs DEFAULT_GLYPHS guide) := by
  intro cs
  induction cs with
  | nil => intro _ guide; simp [formatNodesH, renderChildren, linesConcat]
  | cons c rest ihr =>
    intro h guide
    have h1 : heightN c ≤ k :=
      le_trans (heightN_le_heightL (List.mem_cons_self c rest)) h
    have h2 : heightL rest ≤ k := by
      have : heightL rest ≤ heightL (c :: rest) := by simp [heightL]
      omega
    show formatTreeH c guide (if rest.isEmpty then "└─ " else "├─ ") false rest.isEmpty
        ++ formatNodesH rest guide
      = linesConcat (renderNode c DEFAULT_GLYPHS guide rest.isEmpty false
          :: renderChildren rest DEFAULT_GLYPHS guide)
    rw [ih c h1 guide rest.isEmpty, ihr h2 guide]
    simp [linesConcat, String.append_assoc]

theorem fmtTreeH_nonroot_eq : ∀ k n, heightN n ≤ k → ∀ guide isLast,
    formatTreeH n guide (if isLast then "└─ " else "├─ ") false isLast
      = renderNode n DEFAULT_GLYPHS guide isLast false ++ "\n" := by
  intro k
  induction k with
  | zero =>
    intro n h
    exact absurd h (by have := heightN_pos n; omega)
  | succ k ih =>
    intro n h guide isLast
    match n with
    | .leaf t => simp [formatTreeH, renderNode, DEFAULT_GLYPHS]
    | .parent t [] => simp [formatTreeH, renderNode, DEFAULT_GLYPHS]
    | .parent t (c :: rest) =>
      have hcs : heightL (c :: rest) ≤ k := by
        simp [heightN] at h; omega
      have hlist := fmtNodesH_eq_of k ih (c :: rest) hcs
        (guide ++ (if isLast then "   " else "│  "))
      simp only [formatTreeH, renderNode, if_neg Bool.false_ne_true]
      rw [hlist]
      simp only [renderChildren]
      rw [linesConcat_cons]
      simp [DEFAULT_GLYPHS, String.append_assoc]

theorem fmtNodesH_eq (cs : List Node) (guide : String) :
    formatNodesH cs guide = linesConcat (renderChildren cs DEFAULT_GLYPHS guide) :=
  fmtNodesH_eq_of (heightL cs)
    (fun n h => fmtTreeH_nonroot_eq (heightL cs) n h) cs le_rfl guide

theorem fmtTreeH_root_eq (n : Node) :
    formatTreeH n "" "" true true = renderNode n DEFAULT_GLYPHS "" true true ++ "\n" := by
  match n with
  | .leaf t => simp [formatTreeH, renderNode]
  | .parent t [] => simp [formatTreeH, renderNode]
  | .parent t (c :: rest) =>
    have hlist := fmtNodesH_eq (c :: rest) ""
    simp only [formatTreeH, renderNode, if_true]
    rw [hlist]
    simp only [renderChildren]
    rw [linesConcat_cons]
    simp [String.append_assoc]

theorem renderChildrenWithF_eq (g : Glyphs) (rn : Node → String → Bool → Option String)
    (cs : List Node) (pre : String)
    (h : ∀ c last, c ∈ cs → rn c pre last = some (renderNode c g pre last false)) :
    renderChildrenWithF rn cs pre = some (renderChildren cs g pre) := by
  induction cs with
  | nil => simp [renderChildrenWithF, renderChildren]
  | cons c rest ih =>
    simp only [renderChildrenWithF, renderChildren]
    rw [h c rest.isEmpty (List.mem_cons_self c rest)]
    rw [ih (fun m last hm => h m last (List.mem_cons_of_mem c hm))]
    rfl

theorem renderNodeF_eq (g : Glyphs) : ∀ fuel n, heightN n ≤ fuel →
    ∀ pre isLast isRoot,
      renderNodeF g fuel n pre isLast isRoot = some (renderNode n g pre isLast isRoot) := by
  intro fuel
  induction fuel with
  | zero =>
    intro n h
    exact absurd h (by have := heightN_pos n; omega)
  | succ fuel ih =>
    intro n h pre isLast isRoot
    match n with
    | .leaf t => simp [renderNodeF, renderNode]
    | .parent t [] => simp [renderNodeF, renderNode]
    | .parent t (c :: rest) =>
      have hcs : heightL (c :: rest) ≤ fuel := by
        simp [heightN] at h; omega
      simp only [renderNodeF, renderNode]
      rw [renderChildrenWithF_eq g _ (c :: rest) _
        (fun m last hm => ih m (le_trans (heightN_le_heightL hm) hcs) _ last false)]
      rfl

/-! ## Claim theorems -/

/-- C1: a root node is rendered with no connector glyph before its text
(its own line is just `text`); a non-root node's own line is exactly
`prefix ++ (corner if isLast else branch) ++ text`; the prefix passed to a
non-root node's children is exactly
`prefix ++ (indent if isLast else vertical)`; and a root passes its
children the empty prefix — the empty addition to the root's accumulated
prefix, which at the only root call site (`render` on a single node) is
itself the empty string. -/
theorem c1_connector_and_child_prefixes (g : Glyphs) (pre : String) (isLast : Bool)
    (t : String) (cs : List Node) :
    renderNode (.leaf t) g pre isLast false
      = pre ++ (if isLast then g.corner else g.branch) ++ t ∧
    renderNode (.parent t cs) g pre isLast false
      = pre ++ (if isLast then g.corner else g.branch) ++ t
          ++ childBlock (renderChildren cs g
              (pre ++ (if isLast then g.indent else g.vertical))) ∧
    renderNode (.leaf t) g pre isLast true = t ∧
    renderNode (.parent t cs) g pre isLast true
      = t ++ childBlock (renderChildren cs g "") := by
  refine ⟨?_, ?_, ?_, ?_⟩
  · simp [renderNode, String.append_assoc]
  · cases cs with
    | nil => simp [renderNode, renderChildren, childBlock]
    | cons c rest => simp [renderNode, renderChildren, childBlock, String.append_assoc]
  · simp [renderNode]
  · cases cs with
    | nil => simp [renderNode, renderChildren, childBlock]
    | cons c rest => simp [renderNode, renderChildren, childBlock, String.append_assoc]

/-- C2 counterexample: `render` does not trim trailing whitespace — on the
single root leaf with text `"a "` it returns `"a "` verbatim, which still
ends in the whitespace (`trimEnd` would have removed it). -/
theorem c2_counterexample :
    render (.single (.leaf "a ")) {} = "a " ∧ trimEnd "a " ≠ "a " :=
  ⟨by decide, by decide⟩

/-- C2 amended: `render` on a single-node input applies no trim at all: it
returns `renderNode`'s output unchanged, so `render(leaf(t))` is exactly
`t`, trailing whitespace included.  (The historical `format` of
`src/unnamed/part_000` is what trims; `render.ts` does not, and its own
test suite expects the untrimmed output.) -/
theorem c2_amended (t : String) (options : Options) :
    render (.single (.leaf t)) options = t ∧
    render (.single (.leaf t)) options
      = renderNode (.leaf t) (options.glyphs.getD DEFAULT_GLYPHS) "" true true := by
  exact ⟨by simp [render, renderNode], rfl⟩

/-- C3: an array input renders every element as non-root with positional
`isLast` (`renderChildren`), joined by a single newline with no extra top
line; the empty array gives the empty string; and the sole element of a
one-element array uses the corner glyph: `render [leaf "a"] = "└─ a"`. -/
theorem c3_array_non_root_join (l : List Node) (options : Options) :
    render (.array l) options
      = jsJoin "\n" (renderChildren l (options.glyphs.getD DEFAULT_GLYPHS) "") ∧
    (∀ (c : Node) (rest : List Node) (g : Glyphs) (pre : String),
      renderChildren (c :: rest) g pre
        = renderNode c g pre rest.isEmpty false :: renderChildren rest g pre) ∧
    render (.array []) options = "" ∧
    render (.array [.leaf "a"]) {} = "└─ a" := by
  refine ⟨rfl, fun c rest g pre => rfl, ?_, by decide⟩
  simp [render, renderChildren, jsJoin]

/-- C4 counterexample: the historical `format` (part_000) and `render` with
default glyphs disagree on `[leaf ""]`: the historical API trims the
trailing space of the final `"└─ "` line to `"└─"`, while `render` keeps
`"└─ "`. -/
theorem c4_counterexample :
    formatH (.array [.leaf ""]) = "└─" ∧
    render (.array [.leaf ""]) {} = "└─ " ∧
    formatH (.array [.leaf ""]) ≠ render (.array [.leaf ""]) {} :=
  ⟨by decide, by decide, by decide⟩

/-- C4 amended: the historical `format` — instantiated with `getChildren`
returning the node's children field and `formatNode` returning the node's
text — agrees with `render` under default glyphs up to exactly one final
`trimEnd`: `formatH x = trimEnd (render x)` for every uniform render tree
`x`; the two coincide whenever the rendered string has no trailing
whitespace. -/
theorem c4_amended (x : Input) : formatH x = trimEnd (render x {}) := by
  cases x with
  | single n =>
    show trimEnd (formatTreeH n "" "" true true) = trimEnd (render (.single n) {})
    rw [fmtTreeH_root_eq n, show render (.single n) {}
      = renderNode n DEFAULT_GLYPHS "" true true from rfl, trimEnd_append_newline]
  | array l =>
    show trimEnd (formatNodesH l "") = trimEnd (render (.array l) {})
    rw [fmtNodesH_eq l "", show render (.array l) {}
      = jsJoin "\n" (renderChildren l DEFAULT_GLYPHS "") from rfl]
    cases hc : renderChildren l DEFAULT_GLYPHS "" with
    | nil => simp [linesConcat, jsJoin]
    | cons a as => rw [linesConcat_cons, trimEnd_append_newline]

/-- C5: a parent with zero children renders exactly like a leaf with the
same text in every position (any glyphs, prefix, `isLast`, `isRoot`), and
`render (parent "x" []) = "x"`. -/
theorem c5_empty_parent_like_leaf (t : String) (g : Glyphs) (pre : String)
    (isLast isRoot : Bool) :
    renderNode (.parent t []) g pre isLast isRoot
      = renderNode (.leaf t) g pre isLast isRoot ∧
    render (.single (.parent "x" [])) {} = "x" :=
  ⟨by simp [renderNode], by decide⟩

/-- C6 counterexample: with a `formatNode` callback that reports the
`index` option it receives, formatting a single (root) node through the
historical API yields `"no-index"`, not `"0"`: the root invocation's opts
carry no `index` at all. -/
theorem c6_counterexample :
    formatG 1 gcNone fnShowIndex (.str "root") = some "no-index" ∧
    formatG 1 gcNone fnShowIndex (.str "root") ≠ some "0" :=
  ⟨by decide, by decide⟩

/-- C6 amended: for a single-node input the historical root context does
record `index = 0` (`createRootContext`), but `formatTree` invokes
`formatNode` for the root with opts `{label, children}` that omit `index`
(`undefined`, i.e. `none`) — `index` is only passed for non-root nodes;
the transform stage's `toText` (modelled from the spec, `transform.ts`
being absent from the sources) is invoked for the lone root with
`context.index = 0`. -/
theorem c6_amended (gc : JsVal → Option (List JsVal)) (fn : JsVal → OptsJ → String)
    (gcd : JsVal → Option (List (ChildD JsVal))) (tt : JsVal → TContext JsVal → String)
    (v : JsVal) (fuel : Nat) (h1 : gc v = none) (h2 : gcd v = none) :
    (createRootContextG gc fn).index = 0 ∧
    formatTreeG (fuel + 1) v (createRootContextG gc fn)
      = some (fn v ⟨none, none, none⟩ ++ "\n") ∧
    transformG gcd tt (fuel + 1) v 0 none = some (.leaf (tt v ⟨0, none, none⟩)) := by
  refine ⟨rfl, ?_, ?_⟩
  · simp [formatTreeG, createRootContextG, h1]
  · simp [transformG, h2]

/-- C6 witness: the amended statement evaluated at a concrete leaf-only
input and index-reporting callbacks. -/
theorem c6_amended_witness :
    gcNone (.str "r") = none ∧ gcdNone (.str "r") = none ∧
    ((createRootContextG gcNone fnShowIndex).index = 0 ∧
      formatTreeG 1 (.str "r") (createRootContextG gcNone fnShowIndex)
        = some (fnShowIndex (.str "r") ⟨none, none, none⟩ ++ "\n") ∧
      transformG gcdNone ttShowIndex 1 (.str "r") 0 none
        = some (.leaf (ttShowIndex (.str "r") ⟨0, none, none⟩))) :=
  ⟨rfl, rfl, c6_amended gcNone fnShowIndex gcdNone ttShowIndex (.str "r") 0 rfl rfl⟩

/-- C7: omitting the options entirely and passing the default glyphs
explicitly produce identical output for every input. -/
theorem c7_default_glyphs_idempotent (x : Input) :
    render x {} = render x { glyphs := some DEFAULT_GLYPHS } := by
  cases x <;> rfl

/-- C8: `render` is total and its recursion is well-founded on the tree
structure: the fuelled re-expression of the algorithm, given fuel equal to
the input's height, never exhausts its fuel and returns exactly `render`'s
result — for every finite input and every glyph set (malformed glyph
strings included, since `g` is arbitrary and unvalidated). -/
theorem c8_render_total (input : Input) (options : Options) :
    renderF (heightI input) input options = some (render input options) := by
  cases input with
  | single n =>
    exact renderNodeF_eq (options.glyphs.getD DEFAULT_GLYPHS) (heightN n) n le_rfl "" true true
  | array l =>
    show (renderChildrenWithF _ l "").map (jsJoin "\n") = _
    rw [renderChildrenWithF_eq (options.glyphs.getD DEFAULT_GLYPHS) _ l ""
      (fun c last hc =>
        renderNodeF_eq _ (heightL l) c (heightN_le_heightL hc) "" last false)]
    rfl

/-- C9: a single root leaf with empty text renders to the empty string,
exactly the output of the empty top-level array — the two inputs are
indistinguishable from the output alone. -/
theorem c9_empty_leaf_equals_empty_array :
    render (.single (.leaf "")) {} = "" ∧ render (.array []) {} = "" ∧
    render (.single (.leaf "")) {} = render (.array []) {} :=
  ⟨by decide, by decide, by decide⟩

/-- C10: in the historical API, a child value that is a two-element array
with a string first element passes `isLabeledNode`, is destructured into
label and node (never treated as a bare domain node), and the recursive
formatting then runs on its second element only, with the first element as
the `label`. -/
theorem c10_labeled_child_dispatch (s : String) (w : JsVal) (i : Nat) (ctx : HCtx)
    (fmt : JsVal → HCtx → Option String) :
    isLabeledNode (.arr [.str s, w]) = true ∧
    toEntry (.arr [.str s, w]) i = ⟨w, i, some s⟩ ∧
    formatNodesWith fmt [.arr [.str s, w]] ctx
      = fmt w { ctx with pfx := "└─ ", isRoot := false, isLastChild := true,
                         label := some s, index := 0 } := by
  refine ⟨rfl, rfl, ?_⟩
  cases h : fmt w { ctx with pfx := "└─ ", isRoot := false, isLastChild := true,
                             label := some s, index := 0 } with
  | none => simp [formatNodesWith, toEntries, toEntry, formatEntriesWith, h]
  | some out => simp [formatNodesWith, toEntries, toEntry, formatEntriesWith, h]
